import Mathlib

/-!
# Verification of the `groupBy` grouper of `src/rhyme_finder.js`

This file is a shallow embedding of the `groupBy` function of
`src/rhyme_finder.js` together with proofs about it.

The JavaScript source is:

```
function groupBy(objects, property) {
    if(typeof property !== 'function') {
        const propName = property;
        property = (obj) => obj[propName];
    }
    const groupedObjects = new Map();
    for(const object of objects) {
        const groupName = property(object);
        if(!groupedObjects.has(groupName)) {
            groupedObjects.set(groupName, []);
        }
        groupedObjects.get(groupName).push(object);
    }
    const result = {};
    for(const key of Array.from(groupedObjects.keys()).sort()) {
        result[key] = groupedObjects.get(key);
    }
    return result;
}
```

The embedding models the JavaScript runtime features this function touches:

* Group keys (`Key`) are numbers (modelled as `Int`: all keys occurring in
  this program are integers), strings, or `undefined` (the result of reading
  a missing field).  `Map` keys are compared with SameValueZero, i.e.
  structural equality of `Key`.
* A `Map` is an insertion-ordered association list `List (Key × List α)`;
  `Map.set` on a fresh key appends at the end, `push` appends to the group.
* `Array.prototype.sort()` without comparator sorts by comparing
  `String(x)` with `String(y)` (UTF-16 code-unit lexicographic order,
  which below U+10000 agrees with Lean's `String` order), except that
  `undefined` elements are always placed at the end.  ECMAScript requires
  the sort to be stable, so it is modelled by a stable insertion sort.
* A plain object (`result`) is an ordered list of string-named properties;
  `result[key] = v` coerces `key` with `String(·)` and either overwrites an
  existing property in place or appends a fresh one at the end.
* `Object.entries` (how the program consumes the result, line 135 of the
  source) enumerates properties with array-index names (canonical decimal
  strings of numbers `< 2^32 - 1`) first in ascending numeric order, then
  the remaining names in property-creation order.  Ascending numeric order
  of canonical decimal strings is computed here by parsing the decimal
  string back to a `Nat`.
-/

/-- JavaScript values usable as group keys in this program: numbers
(integers suffice for every key this program derives), strings, and
`undefined`. -/
inductive Key where
  | num : Int → Key
  | str : String → Key
  | undefined : Key
deriving DecidableEq, Repr

/-- Decimal digits of `n`, least significant first; structurally recursive
on a fuel bound so that it reduces inside the kernel. -/
def natDigitsRevAux : Nat → Nat → List Char
  | 0, _ => []
  | fuel + 1, n =>
    if n < 10 then [Nat.digitChar n]
    else Nat.digitChar (n % 10) :: natDigitsRevAux fuel (n / 10)

/-- Decimal digits of `n`, least significant first. -/
def natDigitsRev (n : Nat) : List Char :=
  natDigitsRevAux (n + 1) n

/-- Decimal representation of a natural number, as produced by JavaScript
`String(n)`. -/
def natRepr (n : Nat) : String :=
  ⟨(natDigitsRev n).reverse⟩

/-- Decimal representation of an integer, as produced by JavaScript
`String(i)`. -/
def intRepr (i : Int) : String :=
  if i < 0 then "-" ++ natRepr i.natAbs else natRepr i.toNat

/-- `String(k)` for a key `k`: JavaScript string coercion.
`String(undefined)` is `"undefined"`. -/
def keyToString : Key → String
  | .num i => intRepr i
  | .str s => s
  | .undefined => "undefined"

/-- Parse a list of decimal digit characters, least significant first.
Returns `none` on the empty list or on a non-digit character. -/
def parseRev : List Char → Option Nat
  | [] => none
  | [c] => if c.isDigit then some (c.toNat - 48) else none
  | c :: c' :: cs =>
    match parseRev (c' :: cs) with
    | some m => if c.isDigit then some (10 * m + (c.toNat - 48)) else none
    | none => none

/-- The numeric value of a string of decimal digits (most significant
first), `0` if it is not such a string.  Used to state numeric ordering of
canonical decimal key strings. -/
def numVal (s : String) : Nat :=
  (parseRev s.data.reverse).getD 0

/-- An ECMAScript array index: a canonical decimal string whose numeric
value is below `2^32 - 1`.  Property names of this form enumerate first,
in ascending numeric order. -/
def isArrayIndex (s : String) : Bool :=
  match parseRev s.data.reverse with
  | some n => natRepr n == s && decide (n < 4294967295)
  | none => false

/-- A record: a JavaScript object, modelled as its (distinctly named)
fields.  Only key-typed field values matter to `groupBy`. -/
abbrev Record := List (String × Key)

/-- Reading `obj[propName]`: the field's value, or `undefined` when the
field is missing. -/
def getField (obj : Record) (name : String) : Key :=
  match obj.lookup name with
  | some v => v
  | none => .undefined

/-- The `property` argument of `groupBy`: either a field name (a
non-function value) or a key-derivation function. -/
inductive KeyRule where
  | field : String → KeyRule
  | fn : (Record → Key) → KeyRule

/-- Lines 17–20 of the source: a non-function `property` is replaced by
`(obj) => obj[propName]`. -/
def resolveRule : KeyRule → (Record → Key)
  | .field name => fun obj => getField obj name
  | .fn f => f

/-- One loop iteration of lines 23–30: ensure the group for `k` exists in
the insertion-ordered map, then push `x` at its end.  `Map` key equality
is SameValueZero, i.e. structural equality of `Key`. -/
def addToGroup (m : List (Key × List α)) (k : Key) (x : α) : List (Key × List α) :=
  match m with
  | [] => [(k, [x])]
  | (k', g) :: rest =>
    if k' = k then (k', g ++ [x]) :: rest else (k', g) :: addToGroup rest k x

/-- The accumulation loop of lines 22–30: fold the input records into the
insertion-ordered `Map`. -/
def buildMap (f : α → Key) (objects : List α) : List (Key × List α) :=
  objects.foldl (fun m r => addToGroup m (f r) r) []

/-- Lexicographic code-unit comparison of character lists: the ECMAScript
abstract relational comparison on strings (a strict prefix compares
smaller; otherwise the first differing code unit decides). -/
def strLeB : List Char → List Char → Bool
  | [], _ => true
  | _ :: _, [] => false
  | a :: as, b :: bs => if a = b then strLeB as bs else decide (a.toNat < b.toNat)

/-- `s <= t` for JavaScript strings (code-unit lexicographic order). -/
def strLe (s t : String) : Bool :=
  strLeB s.data t.data

/-- The default sort order of `Array.prototype.sort()` on keys:
`undefined` compares after everything, other keys by their string
coercions. -/
def leK (x y : Key) : Bool :=
  match x, y with
  | .undefined, .undefined => true
  | .undefined, _ => false
  | _, .undefined => true
  | x, y => strLe (keyToString x) (keyToString y)

/-- Insert `x` into `l` before the first element not smaller than it
(stable insertion). -/
def insertIn (le : α → α → Bool) (x : α) : List α → List α
  | [] => [x]
  | y :: ys => if le x y then x :: y :: ys else y :: insertIn le x ys

/-- Stable insertion sort; models the (required-stable) ECMAScript sort
for a consistent comparator. -/
def insertionSort (le : α → α → Bool) : List α → List α
  | [] => []
  | x :: xs => insertIn le x (insertionSort le xs)

/-- Line 34: `Array.from(groupedObjects.keys()).sort()`. -/
def sortK (ks : List Key) : List Key :=
  insertionSort leK ks

/-- `result[s] = v` on a plain object: overwrite an existing property `s`
in place, otherwise append a new one. -/
def objInsert (o : List (String × β)) (s : String) (v : β) : List (String × β) :=
  match o with
  | [] => [(s, v)]
  | (s', v') :: rest =>
    if s' = s then (s', v) :: rest else (s', v') :: objInsert rest s v

/-- `groupedObjects.get(key)` (the key is always present when the source
calls this; a missing key yields `undefined`, modelled by `[]`). -/
def getGrp (m : List (Key × List α)) (k : Key) : List α :=
  (m.lookup k).getD []

/-- Lines 33–36: build the plain `result` object by assigning each sorted
key's group, coercing the key to a string. -/
def buildObj (m : List (Key × List α)) (ks : List Key) : List (String × List α) :=
  ks.foldl (fun o k => objInsert o (keyToString k) (getGrp m k)) []

/-- The `groupBy` function of `src/rhyme_finder.js` (lines 14–38).  The
result is the plain object, as its property list in creation order. -/
def groupBy (objects : List Record) (property : KeyRule) : List (String × List Record) :=
  let f := resolveRule property
  let m := buildMap f objects
  buildObj m (sortK (m.map Prod.fst))

/-- `Object.entries` enumeration order of a plain object's properties:
array-index names first in ascending numeric order, then the rest in
creation order.  This is the order in which the program reads the groups
(line 135). -/
def entries (z : List (String × List α)) : List (String × List α) :=
  insertionSort (fun p q => decide (numVal p.1 ≤ numVal q.1))
      (z.filter fun p => isArrayIndex p.1)
    ++ z.filter fun p => !isArrayIndex p.1

/-- Total number of records across all groups of a result object. -/
def totalLen (z : List (String × List α)) : Nat :=
  (z.map fun p => p.2.length).sum

/-- Flattening a result: concatenation of its groups in output
(enumeration) order. -/
def flattenResult (z : List (String × List Record)) : List Record :=
  ((entries z).map Prod.snd).flatten

/-! ## Decimal representation lemmas -/

theorem digitChar_isDigit {d : Nat} (h : d < 10) : (Nat.digitChar d).isDigit = true := by
  interval_cases d <;> decide

theorem digitChar_toNat {d : Nat} (h : d < 10) : (Nat.digitChar d).toNat - 48 = d := by
  interval_cases d <;> decide

theorem natDigitsRevAux_ne_nil : ∀ {fuel n : Nat}, n < fuel → natDigitsRevAux fuel n ≠ []
  | fuel + 1, n, _ => by
    rw [natDigitsRevAux]
    split <;> simp

theorem parseRev_natDigitsRevAux : ∀ {fuel n : Nat}, n < fuel →
    parseRev (natDigitsRevAux fuel n) = some n
  | fuel + 1, n, hn => by
    rw [natDigitsRevAux]
    split
    · next h =>
      simp [parseRev, digitChar_isDigit h, digitChar_toNat h]
    · next h =>
      have h10 : ¬ n < 10 := h
      have hfuel : n / 10 < fuel := by
        have := Nat.div_lt_self (n := n) (by omega) (show 1 < 10 by omega)
        omega
      have ihd := parseRev_natDigitsRevAux hfuel
      obtain ⟨c, cs, hcons⟩ : ∃ c cs, natDigitsRevAux fuel (n / 10) = c :: cs := by
        cases hd : natDigitsRevAux fuel (n / 10) with
        | nil => exact absurd hd (natDigitsRevAux_ne_nil hfuel)
        | cons c cs => exact ⟨c, cs, rfl⟩
      rw [hcons] at ihd
      have hm : n % 10 < 10 := Nat.mod_lt _ (by omega)
      simp only [parseRev, hcons, ihd, digitChar_isDigit hm, if_true,
        digitChar_toNat hm]
      congr 1
      omega

theorem parseRev_natDigitsRev (n : Nat) : parseRev (natDigitsRev n) = some n :=
  parseRev_natDigitsRevAux (Nat.lt_succ_self n)

theorem numVal_natRepr (n : Nat) : numVal (natRepr n) = n := by
  simp [numVal, natRepr, parseRev_natDigitsRev]

theorem natRepr_inj {m n : Nat} (h : natRepr m = natRepr n) : m = n := by
  have := congrArg numVal h
  rwa [numVal_natRepr, numVal_natRepr] at this

theorem isArrayIndex_natRepr {n : Nat} (h : n < 4294967295) :
    isArrayIndex (natRepr n) = true := by
  simp [isArrayIndex, natRepr, parseRev_natDigitsRev, h]

theorem numVal_keyToString_num {i : Int} (h : 0 ≤ i) :
    numVal (keyToString (.num i)) = i.toNat := by
  simp [keyToString, intRepr, Int.not_lt.mpr h, numVal_natRepr]

/-! ## Stable insertion sort lemmas -/

section SortLemmas

variable {α : Type _} (le : α → α → Bool)

theorem perm_insertIn (x : α) (l : List α) :
    List.Perm (insertIn le x l) (x :: l) := by
  induction l with
  | nil => rfl
  | cons y ys ih =>
    rw [insertIn]
    split
    · rfl
    · exact (List.Perm.cons y ih).trans (List.Perm.swap x y ys)

theorem perm_insertionSort (l : List α) :
    List.Perm (insertionSort le l) l := by
  induction l with
  | nil => rfl
  | cons x xs ih =>
    rw [insertionSort]
    exact (perm_insertIn le x _).trans (List.Perm.cons x ih)

theorem mem_insertionSort {x : α} {l : List α} :
    x ∈ insertionSort le l ↔ x ∈ l :=
  (perm_insertionSort le l).mem_iff

theorem sorted_insertIn
    (htot : ∀ a b, le a b = true ∨ le b a = true)
    (htrans : ∀ a b c, le a b = true → le b c = true → le a c = true)
    {x : α} {l : List α}
    (hs : List.Pairwise (fun a b => le a b = true) l) :
    List.Pairwise (fun a b => le a b = true) (insertIn le x l) := by
  induction l with
  | nil => simp [insertIn]
  | cons y ys ih =>
    rw [insertIn]
    split
    · next hxy =>
      refine List.Pairwise.cons ?_ hs
      intro z hz
      rcases List.mem_cons.1 hz with rfl | hz
      · exact hxy
      · exact htrans _ _ _ hxy (List.rel_of_pairwise_cons hs hz)
    · next hxy =>
      have hyx : le y x = true := (htot x y).resolve_left (by simpa using hxy)
      refine List.Pairwise.cons ?_ (ih (List.Pairwise.of_cons hs))
      intro z hz
      have := (perm_insertIn le x ys).mem_iff.1 hz
      rcases List.mem_cons.1 this with rfl | hz'
      · exact hyx
      · exact List.rel_of_pairwise_cons hs hz'

theorem sorted_insertionSort
    (htot : ∀ a b, le a b = true ∨ le b a = true)
    (htrans : ∀ a b c, le a b = true → le b c = true → le a c = true)
    (l : List α) :
    List.Pairwise (fun a b => le a b = true) (insertionSort le l) := by
  induction l with
  | nil => simp [insertionSort]
  | cons x xs ih => exact sorted_insertIn le htot htrans ih

end SortLemmas

/-- Two sorted lists that are permutations of each other are equal, given
antisymmetry of the order on the elements involved. -/
theorem sorted_perm_eq {α : Type _} {le : α → α → Bool} :
    ∀ {l₁ l₂ : List α},
      (∀ x ∈ l₁, ∀ y ∈ l₁, le x y = true → le y x = true → x = y) →
      List.Perm l₁ l₂ →
      List.Pairwise (fun a b => le a b = true) l₁ →
      List.Pairwise (fun a b => le a b = true) l₂ → l₁ = l₂
  | [], l₂, _, hp, _, _ => (hp.nil_eq).symm ▸ rfl
  | x :: l₁, [], _, hp, _, _ => absurd hp.symm (by simp)
  | x :: l₁, y :: l₂, hanti, hp, hs₁, hs₂ => by
    have hxy : x = y := by
      by_cases hxy : x = y
      · exact hxy
      · have hxm : x ∈ y :: l₂ := hp.mem_iff.1 (List.mem_cons_self x l₁)
        have hym : y ∈ x :: l₁ := hp.mem_iff.2 (List.mem_cons_self y l₂)
        have hx2 : x ∈ l₂ := by
          rcases List.mem_cons.1 hxm with h | h
          · exact absurd h hxy
          · exact h
        have hy1 : y ∈ l₁ := by
          rcases List.mem_cons.1 hym with h | h
          · exact absurd h.symm hxy
          · exact h
        have h1 : le x y = true := List.rel_of_pairwise_cons hs₁ hy1
        have h2 : le y x = true := List.rel_of_pairwise_cons hs₂ hx2
        exact hanti x (List.mem_cons_self x l₁) y hym h1 h2
    subst hxy
    have hp' : List.Perm l₁ l₂ := hp.cons_inv
    have : l₁ = l₂ :=
      sorted_perm_eq
        (fun a ha b hb => hanti a (List.mem_cons_of_mem x ha) b (List.mem_cons_of_mem x hb))
        hp' (List.Pairwise.of_cons hs₁) (List.Pairwise.of_cons hs₂)
    rw [this]

/-! ## First-occurrence deduplication -/

/-- The distinct elements of a list, keeping first occurrences in order. -/
def dedupFirst : List Key → List Key
  | [] => []
  | k :: ks => k :: dedupFirst (ks.filter fun k' => k' ≠ k)
termination_by l => l.length
decreasing_by exact Nat.lt_succ_of_le (List.length_filter_le _ _)

theorem dedupFirst_nil : dedupFirst [] = [] := by rw [dedupFirst]

theorem dedupFirst_cons (k : Key) (ks : List Key) :
    dedupFirst (k :: ks) = k :: dedupFirst (ks.filter fun k' => k' ≠ k) := by
  rw [dedupFirst]

theorem mem_dedupFirst : ∀ {n : Nat} {l : List Key}, l.length ≤ n →
    ∀ {k : Key}, (k ∈ dedupFirst l ↔ k ∈ l)
  | _, [], _, k => by simp [dedupFirst_nil]
  | n + 1, k' :: ks, hn, k => by
    rw [dedupFirst_cons]
    by_cases hk : k = k'
    · subst hk; simp
    · have hlen : (ks.filter fun k'' => k'' ≠ k').length ≤ n :=
        le_trans (List.length_filter_le _ _) (Nat.le_of_succ_le_succ hn)
      simp only [List.mem_cons, hk, false_or]
      rw [mem_dedupFirst hlen]
      simp [hk, List.mem_filter]

theorem nodup_dedupFirst : ∀ {n : Nat} (l : List Key), l.length ≤ n →
    (dedupFirst l).Nodup
  | _, [], _ => by simp [dedupFirst_nil]
  | n + 1, k' :: ks, hn => by
    rw [dedupFirst_cons]
    have hlen : (ks.filter fun k'' => k'' ≠ k').length ≤ n :=
      le_trans (List.length_filter_le _ _) (Nat.le_of_succ_le_succ hn)
    refine List.Nodup.cons ?_ (nodup_dedupFirst _ hlen)
    intro hmem
    have := (mem_dedupFirst hlen).1 hmem
    simp [List.mem_filter] at this

/-! ## Characterizing the accumulation loop -/

section BuildMap

variable {α : Type _}

/-- Head-first restatement of the accumulation loop: the group of the
first record's key collects all matching records; the rest are grouped
recursively. -/
def buildMapF (f : α → Key) : List α → List (Key × List α)
  | [] => []
  | r :: rs =>
    (f r, r :: rs.filter fun r' => f r' == f r)
      :: buildMapF f (rs.filter fun r' => !(f r' == f r))
termination_by l => l.length
decreasing_by exact Nat.lt_succ_of_le (List.length_filter_le _ _)

theorem buildMapF_nil (f : α → Key) : buildMapF f [] = [] := by rw [buildMapF]

theorem buildMapF_cons (f : α → Key) (r : α) (rs : List α) :
    buildMapF f (r :: rs)
      = (f r, r :: rs.filter fun r' => f r' == f r)
        :: buildMapF f (rs.filter fun r' => !(f r' == f r)) := by
  rw [buildMapF]

/-- Processing `rs` from an intermediate map `m`: existing groups are
extended in place, leftover records form fresh trailing groups. -/
def extendMap (f : α → Key) : List (Key × List α) → List α → List (Key × List α)
  | [], rs => buildMapF f rs
  | (k, g) :: m', rs =>
    (k, g ++ rs.filter fun r => f r == k)
      :: extendMap f m' (rs.filter fun r => !(f r == k))

theorem extendMap_nil (f : α → Key) : ∀ m : List (Key × List α), extendMap f m [] = m
  | [] => by simp [extendMap, buildMapF_nil]
  | (k, g) :: m' => by
    simp [extendMap, extendMap_nil f m']

theorem extendMap_addToGroup (f : α → Key) (r : α) :
    ∀ (m : List (Key × List α)) (rs : List α),
      extendMap f (addToGroup m (f r) r) rs = extendMap f m (r :: rs)
  | [], rs => by
    rw [addToGroup]
    rw [show extendMap f [(f r, [r])] rs
        = (f r, [r] ++ rs.filter fun r' => f r' == f r)
          :: extendMap f [] (rs.filter fun r' => !(f r' == f r)) from rfl]
    rw [show extendMap f [] (r :: rs) = buildMapF f (r :: rs) from rfl]
    rw [show extendMap f [] (rs.filter fun r' => !(f r' == f r))
        = buildMapF f (rs.filter fun r' => !(f r' == f r)) from rfl]
    rw [buildMapF_cons]
    simp
  | (k', g) :: m', rs => by
    rw [addToGroup]
    by_cases hk : k' = f r
    · subst hk
      rw [if_pos rfl]
      simp only [extendMap, List.filter_cons, beq_self_eq_true, if_true, Bool.not_true,
        Bool.false_eq_true, if_false]
      simp
    · have hne : (f r == k') = false := by simp [Ne.symm hk]
      rw [if_neg hk]
      simp only [extendMap, List.filter_cons, hne, Bool.not_false, if_true,
        Bool.false_eq_true, if_false]
      rw [extendMap_addToGroup f r m' (rs.filter fun r' => !(f r' == k'))]

theorem foldl_addToGroup_eq (f : α → Key) :
    ∀ (rs : List α) (m : List (Key × List α)),
      rs.foldl (fun m r => addToGroup m (f r) r) m = extendMap f m rs
  | [], m => (extendMap_nil f m).symm
  | r :: rs, m => by
    rw [List.foldl_cons, foldl_addToGroup_eq f rs, extendMap_addToGroup]

/-- The source's `Map`-accumulation loop equals its head-first
restatement. -/
theorem buildMap_eq_buildMapF (f : α → Key) (rs : List α) :
    buildMap f rs = buildMapF f rs := by
  rw [buildMap, foldl_addToGroup_eq]; rfl

theorem filter_map_comm (f : α → Key) (p : Key → Bool) (l : List α) :
    (l.filter fun r => p (f r)).map f = (l.map f).filter p := by
  induction l with
  | nil => rfl
  | cons a l ih =>
    rw [List.filter_cons, List.map_cons, List.filter_cons]
    cases h : p (f a)
    · simp only [Bool.false_eq_true, if_false, ih]
    · simp only [if_true, List.map_cons, ih]

/-- The accumulated map, in closed form: one entry per distinct derived
key in first-occurrence order, whose group is the subsequence of records
deriving that key. -/
theorem buildMapF_eq (f : α → Key) : ∀ {n : Nat} (rs : List α), rs.length ≤ n →
    buildMapF f rs
      = (dedupFirst (rs.map f)).map fun k => (k, rs.filter fun r => f r == k)
  | _, [], _ => by simp [buildMapF_nil, dedupFirst_nil]
  | n + 1, r :: rs', hn => by
    have hlen : (rs'.filter fun r' => !(f r' == f r)).length ≤ n :=
      le_trans (List.length_filter_le _ _) (Nat.le_of_succ_le_succ hn)
    have hpred : (fun k' : Key => decide (k' ≠ f r)) = fun k' => !(k' == f r) := by
      funext a
      by_cases h : a = f r <;> simp [h]
    rw [buildMapF_cons, List.map_cons, dedupFirst_cons, List.map_cons]
    congr 1
    · rw [List.filter_cons]
      simp
    · have hmapf : ((rs'.map f).filter fun k' => decide (k' ≠ f r))
          = (rs'.filter fun r' => !(f r' == f r)).map f := by
        rw [hpred, ← filter_map_comm f (fun k' => !(k' == f r))]
      rw [buildMapF_eq f _ hlen, ← hmapf]
      apply List.map_congr_left
      intro k hk
      have hkne : k ≠ f r := by
        have hmem := (mem_dedupFirst (Nat.le_refl _)).1 hk
        simp only [List.mem_filter] at hmem
        simpa using hmem.2
      have hgrp : ((rs'.filter fun r' => !(f r' == f r)).filter fun r' => f r' == k)
          = (r :: rs').filter fun r' => f r' == k := by
        rw [List.filter_filter, List.filter_cons]
        have hhead : (f r == k) = false := by
          simp [Ne.symm hkne]
        rw [hhead]
        simp only [Bool.false_eq_true, if_false]
        apply List.filter_congr
        intro a _
        by_cases h : f a = k
        · simp [h, hkne]
        · simp [h]
      rw [hgrp]

end BuildMap

/-! ## Derived facts about the accumulated map -/

theorem buildMap_closed {α : Type _} (f : α → Key) (rs : List α) :
    buildMap f rs
      = (dedupFirst (rs.map f)).map fun k => (k, rs.filter fun r => f r == k) := by
  rw [buildMap_eq_buildMapF, buildMapF_eq f rs (Nat.le_refl _)]

theorem buildMap_keys {α : Type _} (f : α → Key) (rs : List α) :
    (buildMap f rs).map Prod.fst = dedupFirst (rs.map f) := by
  rw [buildMap_closed, List.map_map]
  simp [Function.comp_def]

theorem length_filter_not_add {α : Type _} (p : α → Bool) (l : List α) :
    (l.filter p).length + (l.filter fun a => !p a).length = l.length :=
  (List.length_eq_length_filter_add p).symm

theorem sum_buildMapF {α : Type _} (f : α → Key) : ∀ {n : Nat} (rs : List α),
    rs.length ≤ n → ((buildMapF f rs).map fun p => p.2.length).sum = rs.length
  | _, [], _ => by simp [buildMapF_nil]
  | n + 1, r :: rs', hn => by
    have hlen : (rs'.filter fun r' => !(f r' == f r)).length ≤ n :=
      le_trans (List.length_filter_le _ _) (Nat.le_of_succ_le_succ hn)
    rw [buildMapF_cons, List.map_cons, List.sum_cons, sum_buildMapF f _ hlen]
    have hsplit := length_filter_not_add (fun r' => f r' == f r) rs'
    simp only [List.length_cons]
    omega

theorem sum_buildMap {α : Type _} (f : α → Key) (rs : List α) :
    ((buildMap f rs).map fun p => p.2.length).sum = rs.length := by
  rw [buildMap_eq_buildMapF]
  exact sum_buildMapF f rs (Nat.le_refl _)

theorem lookup_map_key {β : Type _} (h : Key → β) :
    ∀ {K : List Key} {k : Key}, k ∈ K →
      List.lookup k (K.map fun k' => (k', h k')) = some (h k)
  | [], k, hk => absurd hk (List.not_mem_nil k)
  | k' :: K, k, hk => by
    rw [List.map_cons, List.lookup_cons]
    by_cases hkk : k = k'
    · subst hkk; simp
    · have : k ∈ K := (List.mem_cons.1 hk).resolve_left hkk
      simp [beq_false_of_ne hkk, lookup_map_key h this]

theorem getGrp_buildMap {α : Type _} (f : α → Key) (rs : List α) {k : Key}
    (hk : k ∈ dedupFirst (rs.map f)) :
    getGrp (buildMap f rs) k = rs.filter fun r => f r == k := by
  rw [getGrp, buildMap_closed, lookup_map_key _ hk, Option.getD_some]

/-! ## Building the result object -/

theorem objInsert_fresh {β : Type _} :
    ∀ (o : List (String × β)) (s : String) (v : β),
      s ∉ o.map Prod.fst → objInsert o s v = o ++ [(s, v)]
  | [], s, v, _ => rfl
  | (s', v') :: o, s, v, h => by
    rw [List.map_cons] at h
    have hs : s' ≠ s := fun hss => h (hss ▸ List.mem_cons_self _ _)
    have h' : s ∉ o.map Prod.fst := fun hmem => h (List.mem_cons_of_mem _ hmem)
    rw [objInsert, if_neg hs, objInsert_fresh o s v h']
    simp

theorem foldl_objInsert_fresh {α : Type _} (m : List (Key × List α)) :
    ∀ (ks : List Key) (o : List (String × List α)),
      (ks.map keyToString).Nodup →
      (∀ k ∈ ks, keyToString k ∉ o.map Prod.fst) →
      ks.foldl (fun o k => objInsert o (keyToString k) (getGrp m k)) o
        = o ++ ks.map fun k => (keyToString k, getGrp m k)
  | [], o, _, _ => by simp
  | k :: ks, o, hnd, hfresh => by
    rw [List.foldl_cons,
      objInsert_fresh o (keyToString k) (getGrp m k) (hfresh k (List.mem_cons_self k ks))]
    rw [foldl_objInsert_fresh m ks (o ++ [(keyToString k, getGrp m k)])
      (by rw [List.map_cons] at hnd; exact hnd.of_cons)
      ?_]
    · simp
    · intro k' hk'
      rw [List.map_append]
      simp only [List.mem_append]
      rintro (h | h)
      · exact hfresh k' (List.mem_cons_of_mem k hk') h
      · rw [List.map_cons] at hnd
        have : keyToString k' ≠ keyToString k :=
          Ne.symm (List.rel_of_pairwise_cons hnd (List.mem_map_of_mem keyToString hk'))
        simp at h
        exact this h

theorem buildObj_fresh {α : Type _} (m : List (Key × List α)) (ks : List Key)
    (hnd : (ks.map keyToString).Nodup) :
    buildObj m ks = ks.map fun k => (keyToString k, getGrp m k) := by
  rw [buildObj, foldl_objInsert_fresh m ks [] hnd (by simp)]
  simp

/-! ## The grouper in closed form -/

/-- Distinct derived keys have distinct string coercions on this input:
the wellformedness proviso under which the `Map` groups survive the copy
into the plain `result` object. -/
def injStr (f : Record → Key) (objects : List Record) : Prop :=
  ∀ r1 ∈ objects, ∀ r2 ∈ objects,
    keyToString (f r1) = keyToString (f r2) → f r1 = f r2

instance (f : Record → Key) (objects : List Record) : Decidable (injStr f objects) :=
  inferInstanceAs (Decidable (∀ r1 ∈ objects, ∀ r2 ∈ objects,
    keyToString (f r1) = keyToString (f r2) → f r1 = f r2))

theorem injStr_on_keys {f : Record → Key} {objects : List Record}
    (hinj : injStr f objects) {x y : Key}
    (hx : x ∈ dedupFirst (objects.map f)) (hy : y ∈ dedupFirst (objects.map f))
    (hxy : keyToString x = keyToString y) : x = y := by
  have hx' := (mem_dedupFirst (Nat.le_refl _)).1 hx
  have hy' := (mem_dedupFirst (Nat.le_refl _)).1 hy
  obtain ⟨r1, hr1, rfl⟩ := List.mem_map.1 hx'
  obtain ⟨r2, hr2, rfl⟩ := List.mem_map.1 hy'
  exact hinj r1 hr1 r2 hr2 hxy

/-- Under the injectivity proviso, `groupBy` is: sort the distinct keys,
then map each to its name and its subsequence of matching records. -/
theorem groupBy_closed (objects : List Record) (rule : KeyRule)
    (hinj : injStr (resolveRule rule) objects) :
    groupBy objects rule
      = (sortK (dedupFirst (objects.map (resolveRule rule)))).map
          fun k => (keyToString k, objects.filter fun r => resolveRule rule r == k) := by
  set f := resolveRule rule with hf
  set K := dedupFirst (objects.map f) with hK
  have hkeys : (buildMap f objects).map Prod.fst = K := buildMap_keys f objects
  have hperm : List.Perm (sortK K) K := perm_insertionSort leK K
  have hndK : K.Nodup := nodup_dedupFirst _ (Nat.le_refl _)
  have hndS : (sortK K).Nodup := (List.Perm.nodup_iff hperm).2 hndK
  have hndNames : ((sortK K).map keyToString).Nodup := by
    refine List.Nodup.map_on ?_ hndS
    intro x hx y hy hxy
    exact injStr_on_keys hinj (hperm.mem_iff.1 hx) (hperm.mem_iff.1 hy) hxy
  rw [groupBy]
  rw [show resolveRule rule = f from rfl, hkeys]
  rw [buildObj_fresh _ _ hndNames]
  apply List.map_congr_left
  intro k hk
  rw [getGrp_buildMap f objects (hperm.mem_iff.1 hk)]

/-! ## Properties of the default sort comparator -/

theorem char_toNat_inj {a b : Char} (h : a.toNat = b.toNat) : a = b := by
  have := congrArg Char.ofNat h
  rwa [Char.ofNat_toNat, Char.ofNat_toNat] at this

theorem strLeB_total : ∀ as bs : List Char, strLeB as bs = true ∨ strLeB bs as = true
  | [], _ => Or.inl rfl
  | _ :: _, [] => Or.inr rfl
  | a :: as, b :: bs => by
    by_cases hab : a = b
    · subst hab
      simpa [strLeB] using strLeB_total as bs
    · have htn : a.toNat ≠ b.toNat := fun h => hab (char_toNat_inj h)
      rw [strLeB, strLeB, if_neg hab, if_neg (Ne.symm hab)]
      rcases Nat.lt_or_ge a.toNat b.toNat with h | h
      · left; simpa using h
      · right; simp; omega

theorem strLeB_trans : ∀ as bs cs : List Char,
    strLeB as bs = true → strLeB bs cs = true → strLeB as cs = true
  | [], _, _, _, _ => rfl
  | a :: as, [], cs, h1, _ => by simp [strLeB] at h1
  | a :: as, b :: bs, [], _, h2 => by simp [strLeB] at h2
  | a :: as, b :: bs, c :: cs, h1, h2 => by
    by_cases hab : a = b <;> by_cases hbc : b = c
    · subst hab; subst hbc
      rw [strLeB, if_pos rfl]
      rw [strLeB, if_pos rfl] at h1 h2
      exact strLeB_trans as bs cs h1 h2
    · subst hab
      rw [strLeB, if_neg hbc] at h2
      rw [strLeB, if_neg hbc]
      exact h2
    · subst hbc
      rw [strLeB, if_neg hab] at h1
      rw [strLeB, if_neg hab]
      exact h1
    · rw [strLeB, if_neg hab] at h1
      rw [strLeB, if_neg hbc] at h2
      have h1' : a.toNat < b.toNat := by simpa using h1
      have h2' : b.toNat < c.toNat := by simpa using h2
      have hac : a ≠ c := by
        intro h
        subst h
        omega
      rw [strLeB, if_neg hac]
      simp
      omega

theorem strLeB_antisymm : ∀ {as bs : List Char},
    strLeB as bs = true → strLeB bs as = true → as = bs
  | [], [], _, _ => rfl
  | [], _ :: _, _, h2 => by simp [strLeB] at h2
  | _ :: _, [], h1, _ => by simp [strLeB] at h1
  | a :: as, b :: bs, h1, h2 => by
    by_cases hab : a = b
    · subst hab
      rw [strLeB, if_pos rfl] at h1 h2
      rw [strLeB_antisymm h1 h2]
    · rw [strLeB, if_neg hab] at h1
      rw [strLeB, if_neg (Ne.symm hab)] at h2
      have h1' : a.toNat < b.toNat := by simpa using h1
      have h2' : b.toNat < a.toNat := by simpa using h2
      omega

theorem strLe_total (s t : String) : strLe s t = true ∨ strLe t s = true :=
  strLeB_total s.data t.data

theorem strLe_trans {s t u : String} (h1 : strLe s t = true) (h2 : strLe t u = true) :
    strLe s u = true :=
  strLeB_trans s.data t.data u.data h1 h2

theorem strLe_antisymm {s t : String} (h1 : strLe s t = true) (h2 : strLe t s = true) :
    s = t := by
  cases s
  cases t
  exact congrArg String.mk (strLeB_antisymm h1 h2)

theorem leK_total (x y : Key) : leK x y = true ∨ leK y x = true := by
  cases x <;> cases y <;> simp [leK] <;> exact strLe_total _ _

theorem leK_trans (x y z : Key) :
    leK x y = true → leK y z = true → leK x z = true := by
  cases x <;> cases y <;> cases z <;> simp [leK] <;>
    exact fun h1 h2 => strLe_trans h1 h2

theorem leK_antisymm_of {x y : Key} (hxy : keyToString x = keyToString y → x = y)
    (h1 : leK x y = true) (h2 : leK y x = true) : x = y := by
  apply hxy
  cases x <;> cases y <;>
    simp only [leK] at h1 h2 <;>
    first
      | rfl
      | exact strLe_antisymm h1 h2
      | simp at h1
      | simp at h2

theorem sorted_sortK (ks : List Key) :
    List.Pairwise (fun a b => leK a b = true) (sortK ks) :=
  sorted_insertionSort leK leK_total leK_trans ks

theorem perm_sortK (ks : List Key) : List.Perm (sortK ks) ks :=
  perm_insertionSort leK ks

theorem leK_undef_left {k : Key} : leK Key.undefined k = true → k = Key.undefined := by
  cases k <;> simp [leK]

/-- In a sorted duplicate-free key list containing `undefined`, the
`undefined` key is the last element. -/
theorem sorted_undef_last : ∀ {l : List Key},
    List.Pairwise (fun a b => leK a b = true) l → l.Nodup → Key.undefined ∈ l →
    ∃ l', l = l' ++ [Key.undefined] ∧ Key.undefined ∉ l'
  | [], _, _, hu => absurd hu (List.not_mem_nil _)
  | x :: xs, hs, hnd, hu => by
    by_cases hx : x = Key.undefined
    · subst hx
      have hxs : xs = [] := by
        cases hxs : xs with
        | nil => rfl
        | cons y ys =>
          exfalso
          have hy : leK Key.undefined y = true :=
            List.rel_of_pairwise_cons hs (hxs ▸ List.mem_cons_self y ys)
          have hyu : y = Key.undefined := leK_undef_left hy
          have hnin : Key.undefined ∉ xs := (List.nodup_cons.1 hnd).1
          exact hnin (hxs ▸ (hyu ▸ List.mem_cons_self y ys))
      exact ⟨[], by rw [hxs]; rfl, List.not_mem_nil _⟩
    · have hu' : Key.undefined ∈ xs := (List.mem_cons.1 hu).resolve_left fun h => hx h.symm
      obtain ⟨l', hl', hnl'⟩ :=
        sorted_undef_last (List.Pairwise.of_cons hs) (List.nodup_cons.1 hnd).2 hu'
      refine ⟨x :: l', by rw [hl']; rfl, ?_⟩
      intro hmem
      rcases List.mem_cons.1 hmem with h | h
      · exact hx h.symm
      · exact hnl' h

/-! ## Enumeration-order lemmas -/

theorem map_filter_swap {α β : Type _} (g : α → β) (q : β → Bool) (l : List α) :
    (l.map g).filter q = (l.filter fun a => q (g a)).map g := by
  induction l with
  | nil => rfl
  | cons a l ih =>
    rw [List.map_cons, List.filter_cons, List.filter_cons]
    cases h : q (g a)
    · simp only [Bool.false_eq_true, if_false, ih]
    · simp only [if_true, List.map_cons, ih]

theorem insertIn_map {α β : Type _} (g : α → β) (le : β → β → Bool)
    (le' : α → α → Bool) (hle : ∀ a b, le (g a) (g b) = le' a b) (x : α) :
    ∀ l : List α, insertIn le (g x) (l.map g) = (insertIn le' x l).map g
  | [] => rfl
  | y :: ys => by
    rw [List.map_cons, insertIn, insertIn, hle]
    cases h : le' x y
    · simp only [Bool.false_eq_true, if_false, List.map_cons,
        insertIn_map g le le' hle x ys]
    · simp only [if_true, List.map_cons]

theorem insertionSort_map {α β : Type _} (g : α → β) (le : β → β → Bool)
    (le' : α → α → Bool) (hle : ∀ a b, le (g a) (g b) = le' a b) :
    ∀ l : List α, insertionSort le (l.map g) = (insertionSort le' l).map g
  | [] => rfl
  | x :: xs => by
    rw [List.map_cons, insertionSort, insertionSort,
      insertionSort_map g le le' hle xs, insertIn_map g le le' hle]

theorem entries_perm {α : Type _} (z : List (String × List α)) :
    List.Perm (entries z) z := by
  rw [entries]
  have h1 := perm_insertionSort (fun p q : String × List α => decide (numVal p.1 ≤ numVal q.1))
    (z.filter fun p => isArrayIndex p.1)
  exact (h1.append (List.Perm.refl _)).trans (List.filter_append_perm _ z)

theorem entries_of_no_index {α : Type _} (z : List (String × List α))
    (h : ∀ p ∈ z, isArrayIndex p.1 = false) : entries z = z := by
  rw [entries]
  rw [List.filter_eq_nil_iff.2 fun p hp => by simp [h p hp]]
  rw [List.filter_eq_self.2 fun p hp => by simp [h p hp]]
  rfl

theorem entries_of_all_index {α : Type _} (z : List (String × List α))
    (h : ∀ p ∈ z, isArrayIndex p.1 = true) :
    entries z
      = insertionSort (fun p q => decide (numVal p.1 ≤ numVal q.1)) z := by
  rw [entries]
  rw [List.filter_eq_self.2 fun p hp => h p hp]
  rw [List.filter_eq_nil_iff.2 fun p hp => by simp [h p hp]]
  simp

/-- A trailing property with a non-index name (and only index names in
front of it being reordered) stays last in enumeration order. -/
theorem entries_getLast {α : Type _} (z : List (String × List α))
    (p : String × List α) (hp : isArrayIndex p.1 = false) :
    (entries (z ++ [p])).getLast? = some p := by
  rw [entries, List.filter_append, List.filter_append]
  have h1 : List.filter (fun q => isArrayIndex q.1) [p] = [] := by
    simp [List.filter_cons, hp]
  have h2 : List.filter (fun q => !isArrayIndex q.1) [p] = [p] := by
    simp [List.filter_cons, hp]
  rw [h1, h2, List.append_nil, ← List.append_assoc]
  exact List.getLast?_concat _

/-! ## Key-derivation failure (exceptions) -/

/-- The accumulation loop when the key-derivation callback may throw: the
source has no handler around `property(object)` (lines 23–30), so the
first failure aborts the loop. -/
def buildMapE {ε : Type _} (f : Record → Except ε Key) :
    List Record → List (Key × List Record) → Except ε (List (Key × List Record))
  | [], m => .ok m
  | r :: rs, m =>
    match f r with
    | .error e => .error e
    | .ok k => buildMapE f rs (addToGroup m k r)

/-- `groupBy` with a throwing key-derivation callback: a failure in the
loop propagates out of the whole call; only a fully accumulated map is
sorted and copied into a result object. -/
def groupByE {ε : Type _} (objects : List Record) (f : Record → Except ε Key) :
    Except ε (List (String × List Record)) :=
  match buildMapE f objects [] with
  | .error e => .error e
  | .ok m => .ok (buildObj m (sortK (m.map Prod.fst)))

theorem buildMapE_error {ε : Type _} (f : Record → Except ε Key) {r : Record}
    {e : ε} (herr : f r = .error e) (l2 : List Record) :
    ∀ (l1 : List Record) (m : List (Key × List Record)),
      (∀ r' ∈ l1, (f r').isOk = true) →
      buildMapE f (l1 ++ r :: l2) m = .error e
  | [], m, _ => by
    rw [List.nil_append, buildMapE, herr]
  | r1 :: l1, m, hok => by
    have h1 : (f r1).isOk = true := hok r1 (List.mem_cons_self r1 l1)
    obtain ⟨k, hk⟩ : ∃ k, f r1 = .ok k := by
      cases hfr : f r1 with
      | error e' => rw [hfr] at h1; simp [Except.isOk, Except.toBool] at h1
      | ok k => exact ⟨k, rfl⟩
    rw [List.cons_append, buildMapE, hk]
    exact buildMapE_error f herr l2 l1 _ fun r' hr' => hok r' (List.mem_cons_of_mem r1 hr')

/-! ## Heap-threading semantics (input immutability) -/

/-- The mutable state visible to a `groupBy` call: the input array (a list
of references to record objects) and the record store. -/
structure Store where
  arr : List Nat
  recs : List Record
deriving DecidableEq

/-- Reading `obj[name]` through a reference into the store. -/
def readField (st : Store) (ref : Nat) (name : String) : Key :=
  getField (st.recs.getD ref []) name

/-- The `property` argument in the heap model: the field form reads the
named field of the referenced record; the callable form computes a key
from the record's value. -/
inductive HKeyRule where
  | field : String → HKeyRule
  | fn : (Record → Key) → HKeyRule

/-- One key derivation, threading the store: `obj[propName]` is a heap
read, and a callback computes on the record it is handed.  Neither form in
the source writes to the store. -/
def hDerive (st : Store) (rule : HKeyRule) (ref : Nat) : Store × Key :=
  match rule with
  | .field name => (st, readField st ref name)
  | .fn f => (st, f (st.recs.getD ref []))

/-- The accumulation loop of lines 23–30 with the store threaded through
every iteration; `groupedObjects` is fresh local state. -/
def groupByHLoop (rule : HKeyRule) :
    List Nat → Store → List (Key × List Nat) → Store × List (Key × List Nat)
  | [], st, m => (st, m)
  | ref :: refs, st, m =>
    let d := hDerive st rule ref
    groupByHLoop rule refs d.1 (addToGroup m d.2 ref)

/-- `groupBy` in the heap model: iterate the input array out of the store,
then sort the keys and build the fresh `result` object (which holds
references, not copies). -/
def groupByH (st : Store) (rule : HKeyRule) : Store × List (String × List Nat) :=
  let lm := groupByHLoop rule st.arr st []
  (lm.1, buildObj lm.2 (sortK (lm.2.map Prod.fst)))

theorem hDerive_store (st : Store) (rule : HKeyRule) (ref : Nat) :
    (hDerive st rule ref).1 = st := by
  cases rule <;> rfl

theorem groupByHLoop_store (rule : HKeyRule) :
    ∀ (refs : List Nat) (st : Store) (m : List (Key × List Nat)),
      (groupByHLoop rule refs st m).1 = st
  | [], st, m => rfl
  | ref :: refs, st, m => by
    rw [groupByHLoop, hDerive_store]
    exact groupByHLoop_store rule refs st _

/-! ## Lemmas on result-object membership -/

theorem mem_objInsert {β : Type _} :
    ∀ {o : List (String × β)} {s : String} {v : β} {p : String × β},
      p ∈ objInsert o s v → p ∈ o ∨ p.2 = v
  | [], s, v, p, h => by
    rw [objInsert] at h
    simp at h
    exact Or.inr (by rw [h])
  | (s', v') :: o, s, v, p, h => by
    rw [objInsert] at h
    by_cases hss : s' = s
    · rw [if_pos hss] at h
      rcases List.mem_cons.1 h with h' | h'
      · exact Or.inr (by rw [h'])
      · exact Or.inl (List.mem_cons_of_mem _ h')
    · rw [if_neg hss] at h
      rcases List.mem_cons.1 h with h' | h'
      · exact Or.inl (h' ▸ List.mem_cons_self _ _)
      · rcases mem_objInsert h' with h'' | h''
        · exact Or.inl (List.mem_cons_of_mem _ h'')
        · exact Or.inr h''

theorem mem_foldl_objInsert {α : Type _} (m : List (Key × List α)) :
    ∀ (ks : List Key) (o : List (String × List α)) (p : String × List α),
      p ∈ ks.foldl (fun o k => objInsert o (keyToString k) (getGrp m k)) o →
      p ∈ o ∨ ∃ k ∈ ks, p.2 = getGrp m k
  | [], o, p, h => Or.inl h
  | k :: ks, o, p, h => by
    rw [List.foldl_cons] at h
    rcases mem_foldl_objInsert m ks _ p h with h' | ⟨k', hk', hv⟩
    · rcases mem_objInsert h' with h'' | hv
      · exact Or.inl h''
      · exact Or.inr ⟨k, List.mem_cons_self k ks, hv⟩
    · exact Or.inr ⟨k', List.mem_cons_of_mem k hk', hv⟩

theorem lookup_map_key_none {β : Type _} (h : Key → β) :
    ∀ {K : List Key} {k : Key}, k ∉ K →
      List.lookup k (K.map fun k' => (k', h k')) = none
  | [], k, _ => rfl
  | k' :: K, k, hk => by
    have hne : k ≠ k' := fun hkk => hk (hkk ▸ List.mem_cons_self k' K)
    rw [List.map_cons, List.lookup_cons]
    simp only [beq_false_of_ne hne]
    exact lookup_map_key_none h fun hmem => hk (List.mem_cons_of_mem k' hmem)

theorem getGrp_buildMap_cases {α : Type _} (f : α → Key) (rs : List α) (k : Key) :
    getGrp (buildMap f rs) k = [] ∨
      getGrp (buildMap f rs) k = rs.filter fun r => f r == k := by
  by_cases hk : k ∈ dedupFirst (rs.map f)
  · exact Or.inr (getGrp_buildMap f rs hk)
  · left
    rw [getGrp, buildMap_closed, lookup_map_key_none _ hk]
    rfl

/-! ## Concrete inputs used by witnesses and counterexamples -/

/-- The record `{name: 'Steve', team: 'blue'}` from the source's doc
comment. -/
def steveRec : Record := [("name", .str "Steve"), ("team", .str "blue")]

/-- The record `{name: 'Jack', team: 'red'}` from the source's doc
comment. -/
def jackRec : Record := [("name", .str "Jack"), ("team", .str "red")]

/-- The record `{name: 'Carol', team: 'blue'}` from the source's doc
comment. -/
def carolRec : Record := [("name", .str "Carol"), ("team", .str "blue")]

/-- The example input of the source's doc comment. -/
def teamInput : List Record := [steveRec, jackRec, carolRec]

/-! ## Claim C4 -/

/-- Claim C4 (confirmed): stability.  Every group in the result of
`groupBy` is an order-preserving subsequence of the input: within each
group the records appear in the same relative order as in the input
sequence. -/
theorem groupBy_stability (objects : List Record) (rule : KeyRule) :
    ∀ p ∈ groupBy objects rule, p.2.Sublist objects := by
  intro p hp
  simp only [groupBy, buildObj] at hp
  rcases mem_foldl_objInsert _ _ _ p hp with h | ⟨k, _, hv⟩
  · cases h
  · rcases getGrp_buildMap_cases (resolveRule rule) objects k with h0 | h0
    · rw [hv, h0]
      exact List.nil_sublist objects
    · rw [hv, h0]
      exact List.filter_sublist objects

/-- Witness for C4 at the source's doc-comment example: the `"blue"` group
keeps Steve before Carol, their input order. -/
theorem groupBy_stability_witness :
    ("blue", [steveRec, carolRec]) ∈ groupBy teamInput (.field "team") ∧
    [steveRec, carolRec].Sublist teamInput :=
  ⟨by decide,
   groupBy_stability teamInput (.field "team") ("blue", [steveRec, carolRec]) (by decide)⟩

/-! ## Claim C6 -/

/-- Claim C6 (confirmed): error propagation and atomicity.  If key
derivation succeeds on every record of a prefix `l1` and throws `e` on the
next record `r`, the whole `groupBy` call aborts with that failure: no
partial result object is returned, whatever `l2` still followed. -/
theorem groupByE_error_propagation {ε : Type _} (f : Record → Except ε Key)
    (l1 l2 : List Record) (r : Record) (e : ε)
    (hok : ∀ r' ∈ l1, (f r').isOk = true) (herr : f r = .error e) :
    groupByE (l1 ++ r :: l2) f = .error e := by
  rw [groupByE, buildMapE_error f herr l2 l1 [] hok]

/-- A throwing key rule: derives the `numSyllables` field and throws on
records that lack it. -/
def syllableOrThrow : Record → Except String Key := fun r =>
  match getField r "numSyllables" with
  | .undefined => .error "missing key"
  | v => .ok v

/-- Witness for C6: the middle record lacks the field, and the failure
aborts the whole call even though a record still follows. -/
theorem groupByE_error_propagation_witness :
    groupByE [[("numSyllables", Key.num 1)], [], [("numSyllables", Key.num 2)]]
        syllableOrThrow
      = .error "missing key" :=
  groupByE_error_propagation syllableOrThrow [[("numSyllables", Key.num 1)]]
    [[("numSyllables", Key.num 2)]] [] "missing key" (by decide) rfl

/-! ## Claim C9 -/

/-- Claim C9 (confirmed): input immutability.  In the heap-threading
model, where every field read of the loop passes the store through
explicitly, a `groupBy` call returns the store unchanged: neither the
input array nor any record it references is mutated, and the `Map` and
`result` accumulators are fresh values local to the call. -/
theorem groupByH_preserves_store (st : Store) (rule : HKeyRule) :
    (groupByH st rule).1 = st :=
  groupByHLoop_store rule st.arr st []

/-! ## Claim C1 -/

/-- Claim C1 (counterexample): completeness fails as stated.  With the two
records `{k: 3}` and `{k: "3"}` — distinct keys that stringify identically
— the result holds one record where the input held two: the numeric-keyed
group is overwritten when the `Map` is copied into the plain `result`
object, so a record is lost. -/
theorem groupBy_completeness_cex :
    totalLen (groupBy [[("k", Key.num 3)], [("k", Key.str "3")]] (.field "k"))
      ≠ ([[("k", Key.num 3)], [("k", Key.str "3")]] : List Record).length := by
  decide

/-- Claim C1 (amended): completeness holds whenever no two distinct
derived keys stringify identically; then the total record count across
all groups equals the input count. -/
theorem groupBy_completeness_amended (objects : List Record) (rule : KeyRule)
    (hinj : injStr (resolveRule rule) objects) :
    totalLen (groupBy objects rule) = objects.length := by
  set f := resolveRule rule
  set K := dedupFirst (objects.map f) with hK
  rw [groupBy_closed objects rule hinj]
  have h1 : totalLen ((sortK K).map fun k => (keyToString k, objects.filter fun r => f r == k))
      = ((sortK K).map fun k => (objects.filter fun r => f r == k).length).sum := by
    rw [totalLen, List.map_map]
    rfl
  rw [h1]
  rw [((perm_sortK K).map fun k => (objects.filter fun r => f r == k).length).sum_eq]
  have h3 : (K.map fun k => (objects.filter fun r => f r == k).length).sum
      = ((buildMap f objects).map fun p => p.2.length).sum := by
    rw [buildMap_closed, List.map_map]
    rfl
  rw [h3, sum_buildMap]

/-- Witness for the amended C1 at the source's doc-comment example. -/
theorem groupBy_completeness_witness :
    injStr (resolveRule (.field "team")) teamInput ∧
    totalLen (groupBy teamInput (.field "team")) = teamInput.length :=
  ⟨by decide, groupBy_completeness_amended teamInput (.field "team") (by decide)⟩

/-! ## Claim C3 -/

/-- Claim C3 (counterexample): merging does not happen.  For `{v: 2}` and
`{v: "2"}` the result has the single property `"2"`, but it holds only the
string-keyed record; the numeric-keyed record is in no group at all — it
is lost, not merged. -/
theorem groupBy_repr_merge_cex :
    groupBy [[("v", Key.num 2)], [("v", Key.str "2")]] (.field "v")
        = [("2", [[("v", Key.str "2")]])] ∧
    ∀ p ∈ groupBy [[("v", Key.num 2)], [("v", Key.str "2")]] (.field "v"),
      ([("v", Key.num 2)] : Record) ∉ p.2 := by
  decide

theorem strLeB_refl : ∀ as : List Char, strLeB as as = true
  | [] => rfl
  | a :: as => by rw [strLeB, if_pos rfl, strLeB_refl as]

theorem strLe_refl (s : String) : strLe s s = true :=
  strLeB_refl s.data

/-- Claim C3 (amended): when two records derive the distinct keys `n` (a
number) and `String(n)` (a string), which stringify identically, the
result has a single group under that string — but it contains only the
record whose key sorted last (here the string-keyed one); the other record
is overwritten during the copy into the plain object and lost. -/
theorem groupBy_repr_collision_amended (r1 r2 : Record) (f : Record → Key)
    (n : Int) (h1 : f r1 = .num n) (h2 : f r2 = .str (intRepr n)) :
    groupBy [r1, r2] (.fn f) = [(intRepr n, [r2])] := by
  have hne : Key.num n ≠ Key.str (intRepr n) := by simp
  have hm : buildMap f [r1, r2]
      = [(Key.num n, [r1]), (Key.str (intRepr n), [r2])] := by
    simp [buildMap, addToGroup, h1, h2]
  have hsort : sortK [Key.num n, Key.str (intRepr n)]
      = [Key.num n, Key.str (intRepr n)] := by
    have hle : leK (Key.num n) (Key.str (intRepr n)) = true := by
      simp only [leK, keyToString]
      exact strLe_refl (intRepr n)
    simp [sortK, insertionSort, insertIn, hle]
  rw [groupBy]
  rw [show resolveRule (.fn f) = f from rfl]
  rw [hm]
  rw [show ([(Key.num n, [r1]), (Key.str (intRepr n), [r2])]).map Prod.fst
      = [Key.num n, Key.str (intRepr n)] from rfl]
  rw [hsort, buildObj, List.foldl_cons, List.foldl_cons, List.foldl_nil]
  rw [show getGrp [(Key.num n, [r1]), (Key.str (intRepr n), [r2])] (Key.num n) = [r1] by
    simp [getGrp, List.lookup]]
  rw [show getGrp [(Key.num n, [r1]), (Key.str (intRepr n), [r2])] (Key.str (intRepr n)) = [r2] by
    simp [getGrp, List.lookup, beq_false_of_ne (Ne.symm hne)]]
  simp [objInsert, keyToString]

/-- Witness for the amended C3 at `{v: 2}` and `{v: "2"}`. -/
theorem groupBy_repr_collision_witness :
    groupBy [[("v", Key.num 2)], [("v", Key.str "2")]]
        (.fn fun r => getField r "v")
      = [(intRepr 2, [[("v", Key.str "2")]])] :=
  groupBy_repr_collision_amended _ _ _ 2 (by decide) (by decide)

/-! ## Claim C5 -/

/-- Claim C5 (counterexample): key partition fails as stated.  With
`{k: 7}` and `{k: "7"}`, the record `{k: 7}` appears in no group whose key
is the string form of its derived key — it appears in no group at all. -/
theorem groupBy_partition_cex :
    ¬ ∃ p ∈ groupBy [[("k", Key.num 7)], [("k", Key.str "7")]] (.field "k"),
        p.1 = keyToString (resolveRule (.field "k") [("k", Key.num 7)]) ∧
        ([("k", Key.num 7)] : Record) ∈ p.2 := by
  decide

/-- Claim C5 (amended): under the stringification-injectivity proviso,
group names are pairwise distinct, every record appears in the group named
by its derived key's string form, and in no group named otherwise. -/
theorem groupBy_partition_amended (objects : List Record) (rule : KeyRule)
    (hinj : injStr (resolveRule rule) objects) :
    ((groupBy objects rule).map Prod.fst).Nodup ∧
    ∀ r ∈ objects,
      (∃ p ∈ groupBy objects rule,
        p.1 = keyToString (resolveRule rule r) ∧ r ∈ p.2) ∧
      (∀ p ∈ groupBy objects rule, r ∈ p.2 →
        p.1 = keyToString (resolveRule rule r)) := by
  set f := resolveRule rule with hf
  set K := dedupFirst (objects.map f) with hK
  have hperm : List.Perm (sortK K) K := perm_sortK K
  have hndK : K.Nodup := nodup_dedupFirst _ (Nat.le_refl _)
  have hndS : (sortK K).Nodup := (List.Perm.nodup_iff hperm).2 hndK
  have hclosed := groupBy_closed objects rule hinj
  rw [← hf, ← hK] at hclosed
  constructor
  · rw [hclosed, List.map_map]
    refine List.Nodup.map_on ?_ hndS
    intro x hx y hy hxy
    exact injStr_on_keys hinj (hperm.mem_iff.1 hx) (hperm.mem_iff.1 hy) hxy
  · intro r hr
    constructor
    · refine ⟨(keyToString (f r), objects.filter fun r' => f r' == f r), ?_, rfl, ?_⟩
      · rw [hclosed]
        refine List.mem_map.2 ⟨f r, ?_, rfl⟩
        refine hperm.mem_iff.2 ?_
        exact (mem_dedupFirst (Nat.le_refl _)).2 (List.mem_map_of_mem f hr)
      · exact List.mem_filter.2 ⟨hr, by simp⟩
    · intro p hp hrp
      rw [hclosed] at hp
      obtain ⟨k, _, rfl⟩ := List.mem_map.1 hp
      have : f r = k := by
        have := (List.mem_filter.1 hrp).2
        simpa using this
      rw [this]

/-- Witness for the amended C5 at the source's doc-comment example,
instantiated to Jack's record. -/
theorem groupBy_partition_witness :
    injStr (resolveRule (.field "team")) teamInput ∧
    ((∃ p ∈ groupBy teamInput (.field "team"),
        p.1 = keyToString (resolveRule (.field "team") jackRec) ∧ jackRec ∈ p.2) ∧
      (∀ p ∈ groupBy teamInput (.field "team"), jackRec ∈ p.2 →
        p.1 = keyToString (resolveRule (.field "team") jackRec))) :=
  ⟨by decide,
   (groupBy_partition_amended teamInput (.field "team") (by decide)).2 jackRec
     (by decide)⟩

/-! ## Key classifiers used to state the ordering claims -/

/-- A number key that is a valid array index (non-negative, below
`2^32 - 1`). -/
def Key.isIdxNum : Key → Bool
  | .num i => decide (0 ≤ i) && decide (i < 4294967295)
  | _ => false

/-- A non-negative number key. -/
def Key.isNonnegNum : Key → Bool
  | .num i => decide (0 ≤ i)
  | _ => false

/-- A string key. -/
def Key.isStr : Key → Bool
  | .str _ => true
  | _ => false

/-- A string key that is not in array-index form. -/
def Key.isNonIdxStr : Key → Bool
  | .str s => !isArrayIndex s
  | _ => false

theorem isIdxNum_elim {k : Key} (h : k.isIdxNum = true) :
    ∃ i : Int, k = .num i ∧ 0 ≤ i ∧ i < 4294967295 := by
  cases k with
  | num i => exact ⟨i, rfl, by simpa [Key.isIdxNum] using h⟩
  | str s => simp [Key.isIdxNum] at h
  | undefined => simp [Key.isIdxNum] at h

theorem isNonIdxStr_elim {k : Key} (h : k.isNonIdxStr = true) :
    ∃ s : String, k = .str s ∧ isArrayIndex s = false := by
  cases k with
  | num i => simp [Key.isNonIdxStr] at h
  | str s => exact ⟨s, rfl, by simpa [Key.isNonIdxStr] using h⟩
  | undefined => simp [Key.isNonIdxStr] at h

theorem intRepr_nonneg {i : Int} (h : 0 ≤ i) : intRepr i = natRepr i.toNat := by
  rw [intRepr, if_neg (Int.not_lt.2 h)]

theorem isArrayIndex_keyToString_idxNum {k : Key} (h : k.isIdxNum = true) :
    isArrayIndex (keyToString k) = true := by
  obtain ⟨i, rfl, h0, hb⟩ := isIdxNum_elim h
  rw [keyToString, intRepr_nonneg h0]
  apply isArrayIndex_natRepr
  omega

theorem injStr_of_idxNum {objects : List Record} {f : Record → Key}
    (hall : ∀ r ∈ objects, (f r).isIdxNum = true) : injStr f objects := by
  intro r1 h1 r2 h2 heq
  obtain ⟨i, hi, hi0, _⟩ := isIdxNum_elim (hall r1 h1)
  obtain ⟨j, hj, hj0, _⟩ := isIdxNum_elim (hall r2 h2)
  rw [hi, hj] at heq ⊢
  rw [keyToString, keyToString, intRepr_nonneg hi0, intRepr_nonneg hj0] at heq
  have := natRepr_inj heq
  congr 1
  omega

theorem injStr_of_str {objects : List Record} {f : Record → Key}
    (hall : ∀ r ∈ objects, (f r).isStr = true) : injStr f objects := by
  intro r1 h1 r2 h2 heq
  obtain ⟨s1, hs1⟩ : ∃ s, f r1 = Key.str s := by
    cases hk : f r1 with
    | str s => exact ⟨s, rfl⟩
    | num i =>
      have := hall r1 h1
      rw [hk] at this
      simp [Key.isStr] at this
    | undefined =>
      have := hall r1 h1
      rw [hk] at this
      simp [Key.isStr] at this
  obtain ⟨s2, hs2⟩ : ∃ s, f r2 = Key.str s := by
    cases hk : f r2 with
    | str s => exact ⟨s, rfl⟩
    | num i =>
      have := hall r2 h2
      rw [hk] at this
      simp [Key.isStr] at this
    | undefined =>
      have := hall r2 h2
      rw [hk] at this
      simp [Key.isStr] at this
  rw [hs1, hs2] at heq ⊢
  simpa [keyToString] using heq

/-! ## Sortedness of the enumerated result -/

theorem entries_groupBy_sorted_numeric (objects : List Record) (rule : KeyRule)
    (hall : ∀ r ∈ objects, (resolveRule rule r).isIdxNum = true) :
    List.Pairwise (fun s t : String => numVal s ≤ numVal t)
      ((entries (groupBy objects rule)).map Prod.fst) := by
  have hinj : injStr (resolveRule rule) objects := injStr_of_idxNum hall
  have hclosed := groupBy_closed objects rule hinj
  have hallidx : ∀ p ∈ groupBy objects rule, isArrayIndex p.1 = true := by
    intro p hp
    rw [hclosed] at hp
    obtain ⟨k, hk, rfl⟩ := List.mem_map.1 hp
    have hkK := (mem_dedupFirst (Nat.le_refl _)).1 ((perm_sortK _).mem_iff.1 hk)
    obtain ⟨r, hr, rfl⟩ := List.mem_map.1 hkK
    exact isArrayIndex_keyToString_idxNum (hall r hr)
  rw [entries_of_all_index _ hallidx]
  have hsorted := sorted_insertionSort
    (fun p q : String × List Record => decide (numVal p.1 ≤ numVal q.1))
    (fun a b => by
      rcases Nat.le_total (numVal a.1) (numVal b.1) with h | h <;> simp [h])
    (fun a b c h1 h2 => by
      simp only [decide_eq_true_eq] at h1 h2 ⊢
      omega)
    (groupBy objects rule)
  rw [List.pairwise_map]
  exact hsorted.imp fun h => by simpa using h

theorem entries_groupBy_sorted_lex (objects : List Record) (rule : KeyRule)
    (hall : ∀ r ∈ objects, (resolveRule rule r).isNonIdxStr = true) :
    List.Pairwise (fun s t : String => strLe s t = true)
      ((entries (groupBy objects rule)).map Prod.fst) := by
  have hinj : injStr (resolveRule rule) objects :=
    injStr_of_str fun r hr => by
      obtain ⟨s, hs, _⟩ := isNonIdxStr_elim (hall r hr)
      rw [hs]
      rfl
  have hclosed := groupBy_closed objects rule hinj
  have hkeymem : ∀ k ∈ sortK (dedupFirst (objects.map (resolveRule rule))),
      Key.isNonIdxStr k = true := by
    intro k hk
    have hkK := (mem_dedupFirst (Nat.le_refl _)).1 ((perm_sortK _).mem_iff.1 hk)
    obtain ⟨r, hr, rfl⟩ := List.mem_map.1 hkK
    exact hall r hr
  have hnone : ∀ p ∈ groupBy objects rule, isArrayIndex p.1 = false := by
    intro p hp
    rw [hclosed] at hp
    obtain ⟨k, hk, rfl⟩ := List.mem_map.1 hp
    obtain ⟨s, hs, hsf⟩ := isNonIdxStr_elim (hkeymem k hk)
    rw [hs]
    simpa [keyToString] using hsf
  rw [entries_of_no_index _ hnone, hclosed, List.map_map]
  rw [show ((fun p : String × List Record => p.1)
        ∘ fun k => (keyToString k, objects.filter fun r => resolveRule rule r == k))
      = keyToString from rfl]
  rw [List.pairwise_map]
  refine (sorted_sortK _).imp_of_mem ?_
  intro a b ha hb hab
  obtain ⟨s1, hs1, _⟩ := isNonIdxStr_elim (hkeymem a ha)
  obtain ⟨s2, hs2, _⟩ := isNonIdxStr_elim (hkeymem b hb)
  rw [hs1, hs2] at hab ⊢
  exact hab

/-! ## Claim C10 -/

/-- Claim C10 (counterexample): the ascending-numeric enumeration breaks
for non-negative integer keys at or above `2^32 - 1`, which are not array
indices: with syllable counts `4294967295` and `10000000000` the keys
enumerate in string-sorted creation order, `"10000000000"` before
`"4294967295"`, which is numerically decreasing. -/
theorem groupBy_numeric_enum_cex :
    (∀ r ∈ ([[("numSyllables", Key.num 4294967295)],
             [("numSyllables", Key.num 10000000000)]] : List Record),
        (resolveRule (.field "numSyllables") r).isNonnegNum = true) ∧
    ¬ List.Pairwise (fun s t : String => numVal s ≤ numVal t)
        ((entries (groupBy
            [[("numSyllables", Key.num 4294967295)],
             [("numSyllables", Key.num 10000000000)]]
            (.field "numSyllables"))).map Prod.fst) := by
  decide

/-- Claim C10 (amended): when every derived key is a non-negative integer
below `2^32 - 1` (an array index — which covers every realistic
`numSyllables` value), the keys of the result enumerate in ascending
numeric order, regardless of the string sort used at insertion. -/
theorem groupBy_numeric_enum_amended (objects : List Record) (rule : KeyRule)
    (hall : ∀ r ∈ objects, (resolveRule rule r).isIdxNum = true) :
    List.Pairwise (fun s t : String => numVal s ≤ numVal t)
      ((entries (groupBy objects rule)).map Prod.fst) :=
  entries_groupBy_sorted_numeric objects rule hall

/-- Witness for the amended C10: syllable counts 2, 10, 2 enumerate as
`"2"`, `"10"` — ascending numerically even though `"10"` sorts before
`"2"` as a string. -/
theorem groupBy_numeric_enum_witness :
    (∀ r ∈ ([[("numSyllables", Key.num 2)], [("numSyllables", Key.num 10)],
             [("numSyllables", Key.num 2)]] : List Record),
        (resolveRule (.field "numSyllables") r).isIdxNum = true) ∧
    List.Pairwise (fun s t : String => numVal s ≤ numVal t)
      ((entries (groupBy
          [[("numSyllables", Key.num 2)], [("numSyllables", Key.num 10)],
           [("numSyllables", Key.num 2)]] (.field "numSyllables"))).map Prod.fst) :=
  ⟨by decide,
   groupBy_numeric_enum_amended _ (.field "numSyllables") (by decide)⟩

/-! ## Claim C2 -/

/-- Claim C2 (counterexample): the output key sequence is not always
non-decreasing under the natural order of the keys' runtime type.  With
the all-number input `{m: 10000000000}`, `{m: 4294967295}` the observable
key sequence is `"10000000000"`, `"4294967295"` — numerically
decreasing (neither key is an array index, so creation order, which is
string-sorted, shows through). -/
theorem groupBy_sort_order_cex :
    ¬ (((∀ r ∈ ([[("m", Key.num 10000000000)], [("m", Key.num 4294967295)]] : List Record),
            (resolveRule (.field "m") r).isNonnegNum = true) →
          List.Pairwise (fun s t : String => numVal s ≤ numVal t)
            ((entries (groupBy
                [[("m", Key.num 10000000000)], [("m", Key.num 4294967295)]]
                (.field "m"))).map Prod.fst)) ∧
        ((∀ r ∈ ([[("m", Key.num 10000000000)], [("m", Key.num 4294967295)]] : List Record),
            (resolveRule (.field "m") r).isStr = true) →
          List.Pairwise (fun s t : String => strLe s t = true)
            ((entries (groupBy
                [[("m", Key.num 10000000000)], [("m", Key.num 4294967295)]]
                (.field "m"))).map Prod.fst))) := by
  decide

/-- Claim C2 (amended): the observable (enumeration-order) key sequence is
numerically non-decreasing when every derived key is a non-negative
integer below `2^32 - 1`, and lexicographically non-decreasing when every
derived key is a string not in array-index form. -/
theorem groupBy_sort_order_amended (objects : List Record) (rule : KeyRule) :
    ((∀ r ∈ objects, (resolveRule rule r).isIdxNum = true) →
      List.Pairwise (fun s t : String => numVal s ≤ numVal t)
        ((entries (groupBy objects rule)).map Prod.fst)) ∧
    ((∀ r ∈ objects, (resolveRule rule r).isNonIdxStr = true) →
      List.Pairwise (fun s t : String => strLe s t = true)
        ((entries (groupBy objects rule)).map Prod.fst)) :=
  ⟨entries_groupBy_sorted_numeric objects rule,
   entries_groupBy_sorted_lex objects rule⟩

/-- Witness for the amended C2 at the source's doc-comment example:
string keys `"blue"`, `"red"` come out lexicographically sorted. -/
theorem groupBy_sort_order_witness :
    (∀ r ∈ teamInput, (resolveRule (.field "team") r).isNonIdxStr = true) ∧
    List.Pairwise (fun s t : String => strLe s t = true)
      ((entries (groupBy teamInput (.field "team"))).map Prod.fst) :=
  ⟨by decide, (groupBy_sort_order_amended teamInput (.field "team")).2 (by decide)⟩

/-! ## Claim C7 -/

/-- Claim C7 (counterexample): records with a missing field do form a
single `undefined`-keyed group without an error, but that group is not
sorted by the same rule as the other keys: with keys `"z"` and the missing
marker, string comparison would put `"undefined"` first, yet the default
sort special-cases `undefined` to the end, so the output is `"z"` then
`"undefined"` — not ordered by the string rule. -/
theorem groupBy_missing_key_cex :
    (entries (groupBy [[("a", Key.str "z")], []] (.field "a"))).map Prod.fst
        = ["z", "undefined"] ∧
    strLe "undefined" "z" = true ∧
    ¬ List.Pairwise (fun s t : String => strLe s t = true)
        ((entries (groupBy [[("a", Key.str "z")], []] (.field "a"))).map Prod.fst) := by
  decide

/-- Claim C7 (amended): with a field-name rule, records lacking the field
signal no error (derivation is total) and form a single group named
`"undefined"` holding exactly those records in input order — but the group
is placed last in the output, after every other key, because the default
sort special-cases `undefined` rather than comparing its string form. -/
theorem groupBy_missing_key_amended (objects : List Record) (name : String)
    (hinj : injStr (resolveRule (.field name)) objects)
    (hmiss : ∃ r ∈ objects, getField r name = .undefined) :
    ((entries (groupBy objects (.field name))).map Prod.fst).Nodup ∧
    (entries (groupBy objects (.field name))).getLast?
      = some ("undefined",
          objects.filter fun r => resolveRule (.field name) r == Key.undefined) := by
  have hperm := perm_sortK (dedupFirst (objects.map (resolveRule (.field name))))
  have hndK : (dedupFirst (objects.map (resolveRule (.field name)))).Nodup :=
    nodup_dedupFirst _ (Nat.le_refl _)
  have hndS : (sortK (dedupFirst (objects.map (resolveRule (.field name))))).Nodup :=
    hperm.nodup_iff.2 hndK
  have hclosed := groupBy_closed objects (.field name) hinj
  have hndNames : ((groupBy objects (.field name)).map Prod.fst).Nodup := by
    rw [hclosed, List.map_map]
    refine List.Nodup.map_on ?_ hndS
    intro x hx y hy hxy
    exact injStr_on_keys hinj (hperm.mem_iff.1 hx) (hperm.mem_iff.1 hy) hxy
  constructor
  · exact ((entries_perm (groupBy objects (.field name))).map Prod.fst).nodup_iff.2 hndNames
  · have hu : Key.undefined ∈ sortK (dedupFirst (objects.map (resolveRule (.field name)))) := by
      obtain ⟨r, hr, hru⟩ := hmiss
      refine hperm.mem_iff.2 ((mem_dedupFirst (Nat.le_refl _)).2 ?_)
      refine List.mem_map.2 ⟨r, hr, ?_⟩
      exact hru
    obtain ⟨l', hl', _⟩ :=
      sorted_undef_last (sorted_sortK (dedupFirst (objects.map (resolveRule (.field name)))))
        hndS hu
    rw [hclosed, hl', List.map_append, List.map_cons, List.map_nil]
    rw [show keyToString Key.undefined = "undefined" from rfl]
    refine entries_getLast _ _ ?_
    show isArrayIndex "undefined" = false
    decide

/-- Witness for the amended C7: with `{a: "b"}` and two field-less
records, the `"undefined"` group is last and holds both field-less records
in input order. -/
theorem groupBy_missing_key_witness :
    injStr (resolveRule (.field "a")) [[("a", Key.str "b")], [], [("c", Key.num 1)]] ∧
    (∃ r ∈ ([[("a", Key.str "b")], [], [("c", Key.num 1)]] : List Record),
      getField r "a" = .undefined) ∧
    (entries (groupBy [[("a", Key.str "b")], [], [("c", Key.num 1)]]
        (.field "a"))).getLast?
      = some ("undefined",
          ([[("a", Key.str "b")], [], [("c", Key.num 1)]] : List Record).filter
            fun r => resolveRule (.field "a") r == Key.undefined) :=
  ⟨by decide, ⟨[], by decide⟩,
   (groupBy_missing_key_amended _ "a" (by decide) ⟨[], by decide, rfl⟩).2⟩

/-! ## Regrouping a flattened result -/

theorem entries_map_g (G : Key → List Record) (ks : List Key) :
    entries (ks.map fun k => (keyToString k, G k))
      = (insertionSort (fun a b => decide (numVal (keyToString a) ≤ numVal (keyToString b)))
            (ks.filter fun k => isArrayIndex (keyToString k))
          ++ ks.filter fun k => !isArrayIndex (keyToString k)).map
          fun k => (keyToString k, G k) := by
  rw [entries]
  rw [map_filter_swap (fun k => (keyToString k, G k)) (fun p => isArrayIndex p.1) ks]
  rw [map_filter_swap (fun k => (keyToString k, G k)) (fun p => !isArrayIndex p.1) ks]
  rw [insertionSort_map (fun k => (keyToString k, G k))
    (fun p q => decide (numVal p.1 ≤ numVal q.1))
    (fun a b => decide (numVal (keyToString a) ≤ numVal (keyToString b)))
    (fun a b => rfl)]
  rw [← List.map_append]

theorem dedupFirst_flatten_groups (f : Record → Key) :
    ∀ (ks : List Key) (G : Key → List Record), ks.Nodup →
      (∀ k ∈ ks, G k ≠ []) → (∀ k ∈ ks, ∀ x ∈ G k, f x = k) →
      dedupFirst ((ks.map G).flatten.map f) = ks
  | [], G, _, _, _ => by simp [dedupFirst_nil]
  | k :: ks', G, hnd, hne, hkey => by
    rw [List.map_cons, List.flatten_cons, List.map_append]
    obtain ⟨x, xs, hGk⟩ : ∃ x xs, G k = x :: xs := by
      cases h : G k with
      | nil => exact absurd h (hne k (List.mem_cons_self _ _))
      | cons x xs => exact ⟨x, xs, rfl⟩
    have hx : f x = k := hkey k (List.mem_cons_self _ _) x (hGk ▸ List.mem_cons_self _ _)
    rw [hGk, List.map_cons, hx, List.cons_append, dedupFirst_cons]
    congr 1
    have h1 : (xs.map f).filter (fun k' => k' ≠ k) = [] := by
      rw [List.filter_eq_nil_iff]
      intro a ha
      obtain ⟨y, hy, rfl⟩ := List.mem_map.1 ha
      have : f y = k := hkey k (List.mem_cons_self _ _) y (hGk ▸ List.mem_cons_of_mem _ hy)
      simp [this]
    have h2 : ((ks'.map G).flatten.map f).filter (fun k' => k' ≠ k)
        = (ks'.map G).flatten.map f := by
      rw [List.filter_eq_self]
      intro a ha
      obtain ⟨y, hy, rfl⟩ := List.mem_map.1 ha
      obtain ⟨l, hl, hyl⟩ := List.mem_flatten.1 hy
      obtain ⟨k', hk', rfl⟩ := List.mem_map.1 hl
      have hfy : f y = k' := hkey k' (List.mem_cons_of_mem _ hk') y hyl
      have hkk : k' ≠ k := fun h => (List.nodup_cons.1 hnd).1 (h ▸ hk')
      simp [hfy, hkk]
    rw [List.filter_append, h1, h2, List.nil_append]
    exact dedupFirst_flatten_groups f ks' G (List.nodup_cons.1 hnd).2
      (fun k' hk' => hne k' (List.mem_cons_of_mem _ hk'))
      (fun k' hk' => hkey k' (List.mem_cons_of_mem _ hk'))

theorem filter_flatten_groups (f : Record → Key) :
    ∀ (ks : List Key) (G : Key → List Record) (k : Key), ks.Nodup → k ∈ ks →
      (∀ k' ∈ ks, ∀ x ∈ G k', f x = k') →
      ((ks.map G).flatten).filter (fun x => f x == k) = G k
  | [], _, k, _, hk, _ => absurd hk (List.not_mem_nil _)
  | k'' :: ks', G, k, hnd, hk, hkey => by
    rw [List.map_cons, List.flatten_cons, List.filter_append]
    by_cases hkk : k'' = k
    · subst hkk
      have h1 : (G k'').filter (fun x => f x == k'') = G k'' := by
        rw [List.filter_eq_self]
        intro a ha
        simp [hkey k'' (List.mem_cons_self _ _) a ha]
      have h2 : ((ks'.map G).flatten).filter (fun x => f x == k'') = [] := by
        rw [List.filter_eq_nil_iff]
        intro a ha
        obtain ⟨l, hl, hal⟩ := List.mem_flatten.1 ha
        obtain ⟨k', hk', rfl⟩ := List.mem_map.1 hl
        have hfa : f a = k' := hkey k' (List.mem_cons_of_mem _ hk') a hal
        have hne : k' ≠ k'' := fun h => (List.nodup_cons.1 hnd).1 (h ▸ hk')
        simp [hfa, hne]
      rw [h1, h2, List.append_nil]
    · have hkin : k ∈ ks' := (List.mem_cons.1 hk).resolve_left fun h => hkk h.symm
      have h1 : (G k'').filter (fun x => f x == k) = [] := by
        rw [List.filter_eq_nil_iff]
        intro a ha
        have : f a = k'' := hkey k'' (List.mem_cons_self _ _) a ha
        simp [this, hkk]
      rw [h1, List.nil_append]
      exact filter_flatten_groups f ks' G k (List.nodup_cons.1 hnd).2 hkin
        fun k' hk2 => hkey k' (List.mem_cons_of_mem _ hk2)

/-! ## Claim C8 -/

/-- Claim C8 (counterexample): regrouping the flattened result does not
always reproduce the result.  With keys `"undefined"` (a string), `"z"`,
and a missing field, the overwrite that resolves the `"undefined"`-name
collision leaves the undefined-keyed group at the *first* position (where
the property was created), while regrouping the flattened records sorts
that group's key to the *end* — so the two results list their groups in
different orders. -/
theorem groupBy_idempotent_cex :
    groupBy (flattenResult (groupBy
        [[("a", Key.str "undefined")], [("a", Key.str "z")], []] (.field "a")))
        (.field "a")
      ≠ groupBy [[("a", Key.str "undefined")], [("a", Key.str "z")], []] (.field "a") := by
  decide

/-- Claim C8 (amended): under the stringification-injectivity proviso,
grouping the concatenation of the result's groups in output order with the
same rule reproduces the result object exactly. -/
theorem groupBy_idempotent_amended (objects : List Record) (rule : KeyRule)
    (hinj : injStr (resolveRule rule) objects) :
    groupBy (flattenResult (groupBy objects rule)) rule = groupBy objects rule := by
  set f : Record → Key := resolveRule rule with hfdef
  set G : Key → List Record := fun k => objects.filter fun r => f r == k with hGdef
  set K : List Key := dedupFirst (objects.map f) with hKdef
  set E : List Key :=
    insertionSort (fun a b => decide (numVal (keyToString a) ≤ numVal (keyToString b)))
        ((sortK K).filter fun k => isArrayIndex (keyToString k))
      ++ (sortK K).filter (fun k => !isArrayIndex (keyToString k)) with hEdef
  have hclosed : groupBy objects rule = (sortK K).map fun k => (keyToString k, G k) :=
    groupBy_closed objects rule hinj
  have hEperm : List.Perm E (sortK K) := by
    rw [hEdef]
    exact ((perm_insertionSort _ _).append (List.Perm.refl _)).trans
      (List.filter_append_perm _ (sortK K))
  have hpermK : List.Perm (sortK K) K := perm_sortK K
  have hndK : K.Nodup := nodup_dedupFirst _ (Nat.le_refl _)
  have hndE : E.Nodup := (hEperm.trans hpermK).nodup_iff.2 hndK
  have hmemEK : ∀ k ∈ E, k ∈ K := fun k hk => hpermK.mem_iff.1 (hEperm.mem_iff.1 hk)
  have hGne : ∀ k ∈ K, G k ≠ [] := by
    intro k hk
    have hkm := (mem_dedupFirst (Nat.le_refl _)).1 hk
    obtain ⟨r, hr, rfl⟩ := List.mem_map.1 hkm
    have : r ∈ G (f r) := List.mem_filter.2 ⟨hr, by simp⟩
    exact List.ne_nil_of_mem this
  have hGkey : ∀ (k : Key), ∀ x ∈ G k, f x = k := by
    intro k x hx
    have := (List.mem_filter.1 hx).2
    simpa using this
  have hF : flattenResult (groupBy objects rule) = (E.map G).flatten := by
    rw [flattenResult, hclosed, entries_map_g, List.map_map]
    rfl
  have hbm : buildMap f (flattenResult (groupBy objects rule))
      = E.map fun k => (k, G k) := by
    rw [buildMap_closed]
    have hded : dedupFirst ((flattenResult (groupBy objects rule)).map f) = E := by
      rw [hF]
      exact dedupFirst_flatten_groups f E G hndE (fun k hk => hGne k (hmemEK k hk))
        fun k _ x hx => hGkey k x hx
    rw [hded]
    apply List.map_congr_left
    intro k hk
    have hfilt : (flattenResult (groupBy objects rule)).filter (fun r => f r == k) = G k := by
      rw [hF]
      exact filter_flatten_groups f E G k hndE hk fun k' _ x hx => hGkey k' x hx
    rw [hfilt]
  have hkeysF : (buildMap f (flattenResult (groupBy objects rule))).map Prod.fst = E := by
    rw [hbm, List.map_map]
    simp [Function.comp_def]
  have hsortE : sortK E = sortK K := by
    refine sorted_perm_eq ?_ ((perm_sortK E).trans hEperm) (sorted_sortK E) (sorted_sortK K)
    intro x hx y hy h1 h2
    have hxK : x ∈ K := hmemEK x ((perm_sortK E).mem_iff.1 hx)
    have hyK : y ∈ K := hmemEK y ((perm_sortK E).mem_iff.1 hy)
    exact leK_antisymm_of (injStr_on_keys hinj hxK hyK) h1 h2
  have hndNames : ((sortK K).map keyToString).Nodup := by
    refine List.Nodup.map_on ?_ (hpermK.nodup_iff.2 hndK)
    intro x hx y hy hxy
    exact injStr_on_keys hinj (hpermK.mem_iff.1 hx) (hpermK.mem_iff.1 hy) hxy
  show buildObj (buildMap f (flattenResult (groupBy objects rule)))
      (sortK ((buildMap f (flattenResult (groupBy objects rule))).map Prod.fst))
    = groupBy objects rule
  rw [hkeysF, hsortE, hbm, buildObj_fresh _ _ hndNames, hclosed]
  apply List.map_congr_left
  intro k hk
  have hkE : k ∈ E := hEperm.mem_iff.2 hk
  rw [getGrp, lookup_map_key G hkE, Option.getD_some]

/-- Witness for the amended C8 at the source's doc-comment example. -/
theorem groupBy_idempotent_witness :
    injStr (resolveRule (.field "team")) teamInput ∧
    groupBy (flattenResult (groupBy teamInput (.field "team"))) (.field "team")
      = groupBy teamInput (.field "team") :=
  ⟨by decide, groupBy_idempotent_amended teamInput (.field "team") (by decide)⟩
